import Mathlib

/-!
Shallow embedding of the vertical interpolation / surface splicing /
harmonic smoothing core of PGW4ERA5 (functions.py).

Pressures and field values are modelled as exact rationals (ℚ); the
harmonic smoother, which uses trigonometric functions, is modelled over ℝ.
Float NaN (arising from 0/0 in the interpolation formula) is modelled as
`none` in an `Option` result element; Python exceptions are modelled with
`Except`.
-/

set_option maxHeartbeats 1000000

deriving instance DecidableEq for Except

/-- Extrapolation mode of `interp_extrap_1d` / `interp_logp_3d`:
the strings 'off', 'linear', 'constant' of the Python code. -/
inductive ExtrapMode where
  | off
  | linear
  | constant
deriving DecidableEq, Repr

/-- Python-level failures of the embedded functions:
`outOfRange` is the ValueError "Extrapolation deactivated but data out of bounds",
`indexError` is a numpy out-of-bounds index,
`topBoundary` is the ValueError raised by vert_interp_delta's model-top guard,
`surfaceBounds` is the bare ValueError raised by replace_delta_sfc,
`emptyReduction` is the ValueError numpy raises for max/min of an empty array,
`seriesTooShort` is the abort in harmonic_ac_analysis when the series is too
short for 3 harmonics. -/
inductive PErr where
  | outOfRange
  | indexError
  | topBoundary
  | surfaceBounds
  | emptyReduction
  | seriesTooShort
deriving DecidableEq, Repr

/-- State of the bracket-search loop in `interp_extrap_1d`:
`i1`, `i2` are the bracket indices (Python ints, -1 is the unset sentinel),
`req` is the `require_extrap` flag. -/
structure ScanSt where
  i1 : Int
  i2 : Int
  req : Bool
deriving DecidableEq, Repr

/-- Numpy-style 1-d array read: a negative index wraps around once
(`a[-1]` is the last element); an index still out of bounds raises. -/
def npGet (xs : List ℚ) (i : Int) : Except PErr ℚ :=
  let j : Int := if i < 0 then (xs.length : Int) + i else i
  if 0 ≤ j ∧ j.toNat < xs.length then .ok (xs.getD j.toNat 0)
  else .error .indexError

/-- The bracket-search loop of `interp_extrap_1d` for positions `si ≥ 1`
(where the `si == 0` test of the first branch is false): break on the first
element equal to the target (exact match, bracket `(si, si)`), or greater
than the target (interpolation, bracket `(si-1, si)`); otherwise continue.
Falling off the end leaves the sentinel state `(-1, -1, false)`. -/
def scanTail (t : ℚ) : List ℚ → Nat → ScanSt
  | [], _ => ⟨-1, -1, false⟩
  | x :: rest, si =>
    if x = t then ⟨(si : Int), (si : Int), false⟩
    else if x > t then ⟨(si : Int) - 1, (si : Int), false⟩
    else scanTail t rest (si + 1)

/-- Bracket state chosen at the lower end (`si == 0` and `src_x[0] > t`):
the Python code only assigns `i1`, `i2` for 'linear' and 'constant',
leaving the -1 sentinels for 'off', and sets `require_extrap` in all modes. -/
def lowerExtrapSt (mode : ExtrapMode) : ScanSt :=
  match mode with
  | .linear => ⟨0, 1, true⟩
  | .constant => ⟨0, 0, true⟩
  | .off => ⟨-1, -1, true⟩

/-- The whole bracket-search loop of `interp_extrap_1d` starting at `si = 0`:
the first iteration can take the lower-end extrapolation branch, the exact
match branch, or continue into `scanTail`. -/
def scanCol (t : ℚ) (mode : ExtrapMode) : List ℚ → ScanSt
  | [] => ⟨-1, -1, false⟩
  | x :: rest =>
    if x > t then lowerExtrapSt mode
    else if x = t then ⟨0, 0, false⟩
    else scanTail t rest 1

/-- The upper-end extrapolation block of `interp_extrap_1d`, entered when the
loop left `i1 == -1`: bracket `(n-2, n-1)` for 'linear', `(n-1, n-1)` for
'constant', indices untouched for 'off'; `require_extrap` is set in all
modes. -/
def upperExtrapSt (mode : ExtrapMode) (n : Nat) (st : ScanSt) : ScanSt :=
  match mode with
  | .linear => ⟨(n : Int) - 2, (n : Int) - 1, true⟩
  | .constant => ⟨(n : Int) - 1, (n : Int) - 1, true⟩
  | .off => ⟨st.i1, st.i2, true⟩

/-- Body of the per-target loop of `interp_extrap_1d` for one target
pressure `t`: bracket search, upper-end fixup, the 'off'-mode error, and the
value computation. When the bracket indices differ but the bracketing
pressures coincide (only reachable via the negative-index wraparound of the
degenerate N = 1 'linear' upper-end case), the float code divides by zero and
produces a non-finite value; this is modelled as `none`. -/
def interpOne (src_x src_y : List ℚ) (t : ℚ) (mode : ExtrapMode) :
    Except PErr (Option ℚ) :=
  let st0 := scanCol t mode src_x
  let st := if st0.i1 = -1 then upperExtrapSt mode src_x.length st0 else st0
  if st.req ∧ mode = .off then .error .outOfRange
  else if st.i1 = st.i2 then do
    let y ← npGet src_y st.i1
    pure (some y)
  else do
    let y1 ← npGet src_y st.i1
    let y2 ← npGet src_y st.i2
    let x1 ← npGet src_x st.i1
    let x2 ← npGet src_x st.i2
    if x1 = x2 then pure none
    else pure (some (y1 + (t - x1) * (y2 - y1) / (x2 - x1)))

/-- Effectful map over a list in the `Except` monad, aborting at the first
error: the shape of the per-target loop filling `targ_y`. -/
def mapE {α β : Type} (f : α → Except PErr β) : List α → Except PErr (List β)
  | [] => .ok []
  | a :: as =>
    match f a with
    | .error e => .error e
    | .ok b =>
      match mapE f as with
      | .error e => .error e
      | .ok bs => .ok (b :: bs)

/-- `interp_extrap_1d(src_x, src_y, targ_x, extrapolate)`: interpolate /
extrapolate the 1-d vertical column `(src_x, src_y)` at every target
coordinate of `targ_x` (functions.py, lines 367-432). -/
def interp_extrap_1d (src_x src_y targ_x : List ℚ) (mode : ExtrapMode) :
    Except PErr (List (Option ℚ)) :=
  mapE (fun t => interpOne src_x src_y t mode) targ_x

example : interp_extrap_1d [100, 200, 300] [1, 2, 3] [150, 300] .linear =
    .ok [some (3/2), some 3] := by
  norm_num [interp_extrap_1d, mapE, interpOne, scanCol, scanTail, lowerExtrapSt,
    upperExtrapSt, npGet, Bind.bind, Except.bind, Pure.pure, Except.pure]
  all_goals decide

example : interp_extrap_1d [100, 200] [10, 20] [50] .off =
    .error .outOfRange := by decide

example : interp_extrap_1d [100, 200] [10, 20] [50] .constant =
    .ok [some 10] := by decide

example : interp_extrap_1d [100] [7] [50] .linear =
    .error .indexError := by decide

example : interp_extrap_1d [100] [7] [150] .linear =
    .ok [none] := by decide

/-- `np.max` of a 1-d array: raises on an empty array
(numpy's "zero-size array to reduction operation" ValueError). -/
def npMax : List ℚ → Except PErr ℚ
  | [] => .error .emptyReduction
  | x :: xs => .ok (xs.foldl max x)

/-- `np.min` of a 1-d array: raises on an empty array. -/
def npMin : List ℚ → Except PErr ℚ
  | [] => .error .emptyReduction
  | x :: xs => .ok (xs.foldl min x)

/-- `np.max(np.argwhere(ps > l))`: the largest index `i` with `l[i] < ps`,
or `none` when no index qualifies (in which case numpy's `np.max` raises on
the empty `argwhere` result). -/
def lastLtIdx (ps : ℚ) : List ℚ → Option Nat
  | [] => none
  | x :: xs =>
    match lastLtIdx ps xs with
    | some k => some (k + 1)
    | none => if x < ps then some 0 else none

/-- The slice assignment `out_delta[sfc_ind:] = delta_sfc`: every element
from position `k` on is overwritten with `v`. -/
def setFrom (l : List ℚ) (k : Nat) (v : ℚ) : List ℚ :=
  l.take k ++ List.replicate (l.length - k) v

/-- `replace_delta_sfc(source_P, ps_hist, delta, delta_sfc)`
(functions.py, lines 225-248): insert the surface value of the climate delta
at the historical surface pressure.  If `ps_hist` exceeds every source
pressure, only the deepest level is rewritten; if `ps_hist` is below every
source pressure the bare `ValueError()` (surface-bounds error) is raised;
otherwise the largest index `sfc_ind` with `source_P[sfc_ind] < ps_hist` is
selected, the delta from `sfc_ind` on is overwritten with `delta_sfc` and
the pressure at `sfc_ind` with `ps_hist`.  When no index qualifies in the
last branch (`ps_hist` equals the minimum source pressure), `np.max` of the
empty `argwhere` result raises. -/
def replace_delta_sfc (source_P : List ℚ) (ps_hist : ℚ) (delta : List ℚ)
    (delta_sfc : ℚ) : Except PErr (List ℚ × List ℚ) := do
  let mx ← npMax source_P
  let mn ← npMin source_P
  if ps_hist > mx then
    let sfc_ind := source_P.length - 1
    pure (source_P.set sfc_ind ps_hist, delta.set sfc_ind delta_sfc)
  else if ps_hist < mn then
    .error .surfaceBounds
  else
    match lastLtIdx ps_hist source_P with
    | none => .error .emptyReduction
    | some sfc_ind =>
      pure (source_P.set sfc_ind ps_hist, setFrom delta sfc_ind delta_sfc)

example : replace_delta_sfc [100, 200, 300] 250 [1, 2, 3] 99 =
    .ok ([100, 250, 300], [1, 99, 99]) := by decide

example : replace_delta_sfc [100, 200, 300] 350 [1, 2, 3] 99 =
    .ok ([100, 200, 350], [1, 2, 99]) := by decide

example : replace_delta_sfc [100, 200, 300] 50 [1, 2, 3] 99 =
    .error .surfaceBounds := by decide

example : replace_delta_sfc [100, 200, 300] 100 [1, 2, 3] 99 =
    .error .emptyReduction := by decide

/-- `determine_p_ref(ps_era, ps_pgw, p_ref_opts, p_ref_last)`
(functions.py, lines 435-449): the first candidate pressure below both
surface pressures, capped at `p_ref_last` when that is given; `none`
(Python `None`, by falling off the loop) when no candidate qualifies. -/
def determine_p_ref (ps_era ps_pgw : ℚ) (p_ref_opts : List ℚ)
    (p_ref_last : Option ℚ) : Option ℚ :=
  match p_ref_opts with
  | [] => none
  | p :: rest =>
    if ps_era > p ∧ ps_pgw > p then
      match p_ref_last with
      | none => some p
      | some l => some (min p l)
    else determine_p_ref ps_era ps_pgw rest p_ref_last

example : determine_p_ref 950 900 [1000, 850, 700] none = some 850 := by decide
example : determine_p_ref 950 900 [1000, 850, 700] (some 700) = some 700 := by decide
example : determine_p_ref 600 900 [1000, 850] none = none := by decide

/-- Column restriction of `vert_interp_delta(delta, target_P, ...)` in the
path without surface values (`delta_sfc is None`, functions.py lines
251-313): the GCM column arrives ordered from bottom to top and is reindexed
to ascending pressure (modelled by reversing both the value column and the
pressure coordinate); the model-top guard compares the raw minimum target
pressure against the raw minimum source pressure and raises unless
`ignore_top_pressure_error` is set; then `interp_logp_3d` interpolates with
'constant' extrapolation on log-transformed pressures.  The strictly
monotone coordinate transform `np.log` is abstracted as the parameter `f`
(exact rationals have no logarithm). -/
def vert_interp_delta_col (f : ℚ → ℚ) (delta plev target_P : List ℚ)
    (ignore_top : Bool) : Except PErr (List (Option ℚ)) := do
  let var := delta.reverse
  let source_P := plev.reverse
  let mnT ← npMin target_P
  let mnS ← npMin source_P
  if mnT < mnS ∧ ¬ignore_top then
    .error .topBoundary
  else
    mapE (fun t => interpOne (source_P.map f) var (f t) .constant) target_P

example : vert_interp_delta_col id [3, 2, 1] [300, 200, 100] [50] false =
    .error .topBoundary := by decide

example : vert_interp_delta_col id [3, 2, 1] [300, 200, 100] [50] true =
    .ok [some 1] := by decide

/-- The mean `ts.mean()` of a timeseries. -/
noncomputable def harmonicMean (tsv : List ℝ) : ℝ := tsv.sum / tsv.length

/-- The angle `2π·i/P · (j+1)`: element `j` of the elementwise product
`2.*math.pi*i/P*timevector` with `timevector = [1, ..., P]`
(`harmonic_ac_analysis`, functions.py line 574). -/
noncomputable def hAngle (P i j : ℕ) : ℝ :=
  2 * Real.pi * i / P * (j + 1)

/-- Coefficient `a = 2./lt*(ts.dot(np.cos(bracket)))` of harmonic `i`. -/
noncomputable def coefA (tsv : List ℝ) (i : ℕ) : ℝ :=
  2 / (tsv.length : ℝ) *
    ∑ j ∈ Finset.range tsv.length, tsv.getD j 0 * Real.cos (hAngle tsv.length i j)

/-- Coefficient `b = 2./lt*(ts.dot(np.sin(bracket)))` of harmonic `i`. -/
noncomputable def coefB (tsv : List ℝ) (i : ℕ) : ℝ :=
  2 / (tsv.length : ℝ) *
    ∑ j ∈ Finset.range tsv.length, tsv.getD j 0 * Real.sin (hAngle tsv.length i j)

/-- The reconstructed series `sum(hcts[0:3,:]) + mean`: rows `i-1` of `hcts`
hold `a·cos(bracket) + b·sin(bracket)` for harmonics `i = 1, 2, 3` (the
fourth row stays zero). -/
noncomputable def hRecon (tsv : List ℝ) : List ℝ :=
  (List.range tsv.length).map (fun j =>
    (∑ i ∈ Finset.range 3,
      (coefA tsv (i + 1) * Real.cos (hAngle tsv.length (i + 1) j) +
       coefB tsv (i + 1) * Real.sin (hAngle tsv.length (i + 1) j))) +
    harmonicMean tsv)

/-- `harmonic_ac_analysis(ts)` (functions.py, lines 529-588).  A float NaN
element is modelled as `none`.  If any element is NaN, a NaN series of the
same length is returned before anything else happens.  Otherwise the loop
over harmonics `i = 1, 2, 3` computes the reconstruction rows, aborting
(`sys.exit`; `sys` is not even imported, so this is a NameError at runtime —
a failure either way, modelled as `seriesTooShort`) at the first `i` with
`i ≥ q` where `q = floor(P/2)`; since `i` ascends, the loop aborts exactly
when `q ≤ 3` and otherwise completes all three rows. -/
noncomputable def harmonic_ac_analysis (ts : List (Option ℝ)) :
    Except PErr (List (Option ℝ)) :=
  if ts.any Option.isNone then .ok (List.replicate ts.length none)
  else
    let tsv := ts.map (fun o => o.getD 0)
    if 3 < tsv.length / 2 then .ok ((hRecon tsv).map some)
    else .error .seriesTooShort

example : harmonic_ac_analysis [some 1, none, some 2] =
    .ok [none, none, none] := by rfl

example : harmonic_ac_analysis [some 1, some 2, some 3] =
    .error .seriesTooShort := by rfl

lemma getD_lt_of_chain (l : List ℚ) (hs : List.Chain' (· < ·) l) {a b : ℕ}
    (hab : a < b) (hb : b < l.length) : l.getD a 0 < l.getD b 0 := by
  have hp : List.Pairwise (· < ·) l := List.chain'_iff_pairwise.mp hs
  rw [List.pairwise_iff_get] at hp
  have h := hp ⟨a, lt_trans hab hb⟩ ⟨b, hb⟩ hab
  rw [List.getD_eq_getElem l 0 (lt_trans hab hb), List.getD_eq_getElem l 0 hb]
  simpa using h

lemma getD_le_of_chain (l : List ℚ) (hs : List.Chain' (· < ·) l) {a b : ℕ}
    (hab : a ≤ b) (hb : b < l.length) : l.getD a 0 ≤ l.getD b 0 := by
  rcases Nat.lt_or_ge a b with h | h
  · exact le_of_lt (getD_lt_of_chain l hs h hb)
  · have : a = b := le_antisymm hab h
    rw [this]

lemma npGet_nat (xs : List ℚ) (k : ℕ) (h : k < xs.length) :
    npGet xs (k : Int) = .ok (xs.getD k 0) := by
  have h0 : ¬ ((k : Int) < 0) := not_lt.mpr (Int.natCast_nonneg k)
  simp [npGet, h0, Int.toNat_natCast, h, Int.natCast_nonneg]

lemma scanTail_all_lt (t : ℚ) (l : List ℚ) (si : ℕ)
    (h : ∀ x ∈ l, x < t) : scanTail t l si = ⟨-1, -1, false⟩ := by
  induction l generalizing si with
  | nil => rfl
  | cons x xs ih =>
    have hx : x < t := h x (List.mem_cons_self x xs)
    simp only [scanTail, if_neg (ne_of_lt hx), if_neg (not_lt.mpr hx.le)]
    exact ih (si + 1) (fun y hy => h y (List.mem_cons_of_mem x hy))

lemma scanTail_first_ge (t : ℚ) (l : List ℚ) (si j : ℕ)
    (hj : j < l.length)
    (hlt : ∀ m, m < j → l.getD m 0 < t)
    (hge : t ≤ l.getD j 0) :
    scanTail t l si =
      if l.getD j 0 = t then ⟨((si + j : ℕ) : Int), ((si + j : ℕ) : Int), false⟩
      else ⟨((si + j : ℕ) : Int) - 1, ((si + j : ℕ) : Int), false⟩ := by
  induction l generalizing si j with
  | nil => simp at hj
  | cons x xs ih =>
    cases j with
    | zero =>
      simp only [List.getD_cons_zero] at hge ⊢
      by_cases hx : x = t
      · simp [scanTail, hx]
      · have hgt : x > t := lt_of_le_of_ne hge (Ne.symm hx)
        simp [scanTail, hx, hgt]
    | succ j =>
      have hx : x < t := by simpa using hlt 0 (Nat.succ_pos j)
      simp only [List.getD_cons_succ] at hge ⊢
      simp only [scanTail, if_neg (ne_of_lt hx), if_neg (not_lt.mpr hx.le)]
      have hj' : j < xs.length := Nat.lt_of_succ_lt_succ (by simpa using hj)
      have hlt' : ∀ m, m < j → xs.getD m 0 < t := fun m hm => by
        simpa using hlt (m + 1) (Nat.succ_lt_succ hm)
      rw [ih (si + 1) j hj' hlt' hge]
      have hcast : (si + 1 + j : ℕ) = (si + (j + 1) : ℕ) := by omega
      rw [hcast]

lemma interpOne_between (src_x src_y : List ℚ) (t : ℚ) (mode : ExtrapMode) (k : ℕ)
    (hs : List.Chain' (· < ·) src_x)
    (hlen : k + 1 < src_x.length)
    (hly : src_y.length = src_x.length)
    (hk1 : src_x.getD k 0 < t)
    (hk2 : t < src_x.getD (k + 1) 0) :
    interpOne src_x src_y t mode =
      .ok (some (src_y.getD k 0 + (t - src_x.getD k 0) *
        (src_y.getD (k + 1) 0 - src_y.getD k 0) /
        (src_x.getD (k + 1) 0 - src_x.getD k 0))) := by
  cases src_x with
  | nil => simp at hlen
  | cons x rest =>
    have hlen' : k + 1 < rest.length + 1 := by simpa using hlen
    have hxlt : x < t := by
      have h0 : (x :: rest).getD 0 0 ≤ (x :: rest).getD k 0 :=
        getD_le_of_chain _ hs (Nat.zero_le k) (Nat.lt_of_succ_lt hlen')
      simpa using lt_of_le_of_lt h0 hk1
    have hjlen : k < rest.length := by omega
    have hlt' : ∀ m, m < k → rest.getD m 0 < t := by
      intro m hm
      have hle : (x :: rest).getD (m + 1) 0 ≤ (x :: rest).getD k 0 :=
        getD_le_of_chain _ hs (by omega) (Nat.lt_of_succ_lt hlen')
      simpa using lt_of_le_of_lt hle hk1
    have hge : t ≤ rest.getD k 0 := by
      have : t < rest.getD k 0 := by simpa using hk2
      exact this.le
    have hne : rest.getD k 0 ≠ t := by
      have : t < rest.getD k 0 := by simpa using hk2
      exact ne_of_gt this
    have hscan : scanTail t rest 1 = ⟨(k : Int), ((k + 1 : ℕ) : Int), false⟩ := by
      rw [scanTail_first_ge t rest 1 k hjlen hlt' hge, if_neg hne]
      have h1 : ((1 + k : ℕ) : Int) - 1 = (k : Int) := by push_cast; ring
      have h2 : ((1 + k : ℕ) : Int) = ((k + 1 : ℕ) : Int) := by push_cast; ring
      rw [h1, h2]
    have hcol : scanCol t mode (x :: rest) = ⟨(k : Int), ((k + 1 : ℕ) : Int), false⟩ := by
      simp only [scanCol, if_neg (not_lt.mpr hxlt.le), if_neg (ne_of_lt hxlt)]
      exact hscan
    have hxne : (x :: rest).getD k 0 ≠ (x :: rest).getD (k + 1) 0 :=
      ne_of_lt (lt_trans hk1 hk2)
    have hky : k + 1 < src_y.length := by omega
    simp only [interpOne, hcol]
    have hne1 : ¬ ((k : Int) = -1) := by omega
    rw [if_neg hne1]
    have hne2 : ¬ ((false : Bool) ∧ mode = ExtrapMode.off) := by simp
    rw [if_neg hne2]
    have hne3 : ¬ ((k : Int) = ((k + 1 : ℕ) : Int)) := by push_cast; omega
    rw [if_neg hne3]
    rw [npGet_nat src_y k (Nat.lt_of_succ_lt hky), npGet_nat src_y (k + 1) hky,
      npGet_nat (x :: rest) k (Nat.lt_of_succ_lt hlen'),
      npGet_nat (x :: rest) (k + 1) hlen']
    simp only [Bind.bind, Except.bind, if_neg hxne]
    rfl

/-- C1: for an ascending source column with at least two points and a target
pressure t strictly between two source points (src_x[i-1] < t < src_x[i],
i.e. i is the first index with src_x[i] > t), `interp_extrap_1d` in any mode
brackets t with (i-1, i) and returns
src_y[i-1] + (t - src_x[i-1]) * (src_y[i] - src_y[i-1]) / (src_x[i] - src_x[i-1]);
in particular interp_extrap_1d([100,200,300], [1,2,3], [150,300], linear)
returns [1.5, 3]. -/
theorem interp_strictly_between_bracket
    (src_x src_y : List ℚ) (t : ℚ) (mode : ExtrapMode) (i : ℕ)
    (hs : List.Chain' (· < ·) src_x)
    (hi : 0 < i) (hlen : i < src_x.length)
    (hly : src_y.length = src_x.length)
    (h1 : src_x.getD (i - 1) 0 < t) (h2 : t < src_x.getD i 0) :
    interp_extrap_1d src_x src_y [t] mode =
      .ok [some (src_y.getD (i - 1) 0 + (t - src_x.getD (i - 1) 0) *
        (src_y.getD i 0 - src_y.getD (i - 1) 0) /
        (src_x.getD i 0 - src_x.getD (i - 1) 0))] ∧
    interp_extrap_1d [100, 200, 300] [1, 2, 3] [150, 300] .linear =
      .ok [some (3/2), some 3] := by
  constructor
  · obtain ⟨k, rfl⟩ : ∃ k, i = k + 1 := ⟨i - 1, by omega⟩
    simp only [Nat.add_sub_cancel] at h1 ⊢
    have h := interpOne_between src_x src_y t mode k hs (by omega) hly h1 h2
    simp [interp_extrap_1d, mapE, h]
  · norm_num [interp_extrap_1d, mapE, interpOne, scanCol, scanTail, lowerExtrapSt,
      upperExtrapSt, npGet, Bind.bind, Except.bind, Pure.pure, Except.pure]
    all_goals decide

/-- Witness for C1 at src_x = [100,200,300], src_y = [1,2,3], t = 150,
mode = linear, i = 1. -/
theorem interp_strictly_between_bracket_witness :
    interp_extrap_1d [(100 : ℚ), 200, 300] [1, 2, 3] [150] .linear =
      .ok [some (3/2)] := by
  have h := (interp_strictly_between_bracket [(100 : ℚ), 200, 300] [1, 2, 3] 150 .linear 1
    (by norm_num [List.chain'_cons, List.chain'_singleton]) (by decide) (by decide)
    (by decide) (by decide) (by decide)).1
  rw [h]
  norm_num [List.getD_cons_zero, List.getD_cons_succ]

lemma interpOne_bracket_same (src_x src_y : List ℚ) (t : ℚ) (mode : ExtrapMode) (k : ℕ)
    (hcol : scanCol t mode src_x = ⟨(k : Int), (k : Int), false⟩)
    (hk : k < src_y.length) :
    interpOne src_x src_y t mode = .ok (some (src_y.getD k 0)) := by
  unfold interpOne
  rw [hcol]
  dsimp only
  rw [if_neg (by omega : ¬((k : Int) = -1))]
  dsimp only
  rw [if_neg (by simp : ¬(false = true ∧ mode = ExtrapMode.off))]
  rw [if_pos rfl]
  rw [npGet_nat src_y k hk]
  rfl

lemma interpOne_bracket_pair (src_x src_y : List ℚ) (t : ℚ) (mode : ExtrapMode) (k : ℕ)
    (hcol : scanCol t mode src_x = ⟨(k : Int), ((k + 1 : ℕ) : Int), false⟩)
    (hky : k + 1 < src_y.length) (hkx : k + 1 < src_x.length)
    (hne : src_x.getD k 0 ≠ src_x.getD (k + 1) 0) :
    interpOne src_x src_y t mode = .ok (some (src_y.getD k 0 +
      (t - src_x.getD k 0) * (src_y.getD (k + 1) 0 - src_y.getD k 0) /
      (src_x.getD (k + 1) 0 - src_x.getD k 0))) := by
  unfold interpOne
  rw [hcol]
  dsimp only
  rw [if_neg (by omega : ¬((k : Int) = -1))]
  dsimp only
  rw [if_neg (by simp : ¬(false = true ∧ mode = ExtrapMode.off))]
  rw [if_neg (by omega : ¬((k : Int) = ((k + 1 : ℕ) : Int)))]
  rw [npGet_nat src_y k (by omega), npGet_nat src_y (k + 1) hky,
    npGet_nat src_x k (by omega), npGet_nat src_x (k + 1) hkx]
  simp only [Bind.bind, Except.bind]
  rw [if_neg hne]
  rfl

lemma interpOne_exact (src_x src_y : List ℚ) (mode : ExtrapMode) (i : ℕ)
    (hs : List.Chain' (· < ·) src_x)
    (hlen : i < src_x.length)
    (hly : src_y.length = src_x.length) :
    interpOne src_x src_y (src_x.getD i 0) mode = .ok (some (src_y.getD i 0)) := by
  cases src_x with
  | nil => simp at hlen
  | cons x rest =>
    cases i with
    | zero =>
      have hcol : scanCol ((x :: rest).getD 0 0) mode (x :: rest) =
          ⟨((0 : ℕ) : Int), ((0 : ℕ) : Int), false⟩ := by
        simp [scanCol]
      exact interpOne_bracket_same (x :: rest) src_y _ mode 0 hcol (by omega)
    | succ n =>
      have hxlt : x < (x :: rest).getD (n + 1) 0 := by
        have := getD_lt_of_chain (x :: rest) hs (Nat.succ_pos n) hlen
        simpa using this
      have hjlen : n < rest.length :=
        Nat.lt_of_succ_lt_succ (by simpa using hlen)
      have hlt' : ∀ m, m < n → rest.getD m 0 < (x :: rest).getD (n + 1) 0 := by
        intro m hm
        have := getD_lt_of_chain (x :: rest) hs (show m + 1 < n + 1 by omega) hlen
        simpa using this
      have hgeq : rest.getD n 0 = (x :: rest).getD (n + 1) 0 := by simp
      have hscan : scanTail ((x :: rest).getD (n + 1) 0) rest 1 =
          ⟨((1 + n : ℕ) : Int), ((1 + n : ℕ) : Int), false⟩ := by
        rw [scanTail_first_ge _ rest 1 n hjlen hlt' (le_of_eq hgeq.symm), if_pos hgeq]
      have hcol : scanCol ((x :: rest).getD (n + 1) 0) mode (x :: rest) =
          ⟨((1 + n : ℕ) : Int), ((1 + n : ℕ) : Int), false⟩ := by
        simp only [scanCol, if_neg (not_lt.mpr hxlt.le), if_neg (ne_of_lt hxlt)]
        exact hscan
      have hcol' : scanCol ((x :: rest).getD (n + 1) 0) mode (x :: rest) =
          ⟨((n + 1 : ℕ) : Int), ((n + 1 : ℕ) : Int), false⟩ := by
        rw [hcol]
        have : (1 + n : ℕ) = n + 1 := by omega
        rw [this]
      exact interpOne_bracket_same (x :: rest) src_y _ mode (n + 1) hcol' (by omega)

lemma interpOne_off_low (src_x src_y : List ℚ) (t : ℚ)
    (hne : src_x ≠ []) (h : t < src_x.getD 0 0) :
    interpOne src_x src_y t .off = .error .outOfRange := by
  cases src_x with
  | nil => exact absurd rfl hne
  | cons x rest =>
    have hx : t < x := by simpa using h
    have hcol : scanCol t .off (x :: rest) = ⟨-1, -1, true⟩ := by
      simp [scanCol, lowerExtrapSt, hx]
    simp [interpOne, hcol, upperExtrapSt]

lemma interpOne_off_high (src_x src_y : List ℚ) (t : ℚ)
    (hall : ∀ x ∈ src_x, x < t) :
    interpOne src_x src_y t .off = .error .outOfRange := by
  have hcol : scanCol t .off src_x = ⟨-1, -1, false⟩ := by
    cases src_x with
    | nil => rfl
    | cons x rest =>
      have hx : x < t := hall x (List.mem_cons_self x rest)
      simp only [scanCol, if_neg (not_lt.mpr hx.le), if_neg (ne_of_lt hx)]
      exact scanTail_all_lt t rest 1 (fun y hy => hall y (List.mem_cons_of_mem x hy))
  simp [interpOne, hcol, upperExtrapSt]

lemma interpOne_off_in_range (src_x src_y : List ℚ) (t : ℚ)
    (hly : src_y.length = src_x.length)
    (hne : src_x ≠ [])
    (hlow : src_x.getD 0 0 ≤ t)
    (hhigh : ∃ j, j < src_x.length ∧ t ≤ src_x.getD j 0) :
    ∃ v, interpOne src_x src_y t .off = .ok v := by
  classical
  obtain ⟨jw, hjw, hjwt⟩ := hhigh
  have hexp : ∃ j, t ≤ src_x.getD j 0 := ⟨jw, hjwt⟩
  have hp0 : t ≤ src_x.getD (Nat.find hexp) 0 := Nat.find_spec hexp
  have hmin : ∀ m, m < Nat.find hexp → src_x.getD m 0 < t := fun m hm =>
    lt_of_not_le (Nat.find_min hexp hm)
  have hj0len : Nat.find hexp < src_x.length :=
    lt_of_le_of_lt (Nat.find_le hjwt) hjw
  cases src_x with
  | nil => exact absurd rfl hne
  | cons x rest =>
    rcases Nat.eq_zero_or_pos (Nat.find hexp) with hj0 | hj0
    · rw [hj0] at hp0
      have hteq : t = x := le_antisymm (by simpa using hp0) (by simpa using hlow)
      have hcol : scanCol t .off (x :: rest) = ⟨((0 : ℕ) : Int), ((0 : ℕ) : Int), false⟩ := by
        simp only [scanCol, Nat.cast_zero]
        rw [if_neg (by rw [hteq]; exact lt_irrefl x), if_pos hteq.symm]
      exact ⟨some (src_y.getD 0 0),
        interpOne_bracket_same (x :: rest) src_y t .off 0 hcol (by omega)⟩
    · obtain ⟨m, hm⟩ : ∃ m, Nat.find hexp = m + 1 := ⟨Nat.find hexp - 1, by omega⟩
      have hxlt : x < t := by simpa using hmin 0 hj0
      have hjlen : m < rest.length := by
        have := hj0len
        simp only [List.length_cons] at this
        omega
      have hlt' : ∀ mm, mm < m → rest.getD mm 0 < t := by
        intro mm hmm
        have := hmin (mm + 1) (by omega)
        simpa using this
      have hge : t ≤ rest.getD m 0 := by
        rw [hm] at hp0
        simpa using hp0
      have hyl : m + 1 < src_y.length := by
        rw [hly, ← hm]
        exact hj0len
      have hc2 : (1 + m : ℕ) = m + 1 := by omega
      by_cases heq : rest.getD m 0 = t
      · have hscan : scanTail t rest 1 =
            ⟨((m + 1 : ℕ) : Int), ((m + 1 : ℕ) : Int), false⟩ := by
          rw [scanTail_first_ge t rest 1 m hjlen hlt' hge, if_pos heq, hc2]
        have hcol : scanCol t .off (x :: rest) =
            ⟨((m + 1 : ℕ) : Int), ((m + 1 : ℕ) : Int), false⟩ := by
          simp only [scanCol, if_neg (not_lt.mpr hxlt.le), if_neg (ne_of_lt hxlt)]
          exact hscan
        exact ⟨some (src_y.getD (m + 1) 0),
          interpOne_bracket_same (x :: rest) src_y t .off (m + 1) hcol hyl⟩
      · have hscan : scanTail t rest 1 =
            ⟨((m : ℕ) : Int), ((m + 1 : ℕ) : Int), false⟩ := by
          rw [scanTail_first_ge t rest 1 m hjlen hlt' hge, if_neg heq]
          congr 1
          · push_cast; ring
          · push_cast; ring
        have hcol : scanCol t .off (x :: rest) =
            ⟨((m : ℕ) : Int), ((m + 1 : ℕ) : Int), false⟩ := by
          simp only [scanCol, if_neg (not_lt.mpr hxlt.le), if_neg (ne_of_lt hxlt)]
          exact hscan
        have hx1lt : (x :: rest).getD m 0 < t := by
          rcases Nat.eq_zero_or_pos m with h0 | h0
          · subst h0; simpa using hxlt
          · obtain ⟨mm, rfl⟩ : ∃ mm, m = mm + 1 := ⟨m - 1, by omega⟩
            simpa using hlt' mm (by omega)
        have hx2gt : t < (x :: rest).getD (m + 1) 0 := by
          have := lt_of_le_of_ne hge (Ne.symm heq)
          simpa using this
        have hxy : (x :: rest).getD m 0 ≠ (x :: rest).getD (m + 1) 0 :=
          ne_of_lt (lt_trans hx1lt hx2gt)
        have hkx : m + 1 < (x :: rest).length := by rw [← hm]; exact hj0len
        exact ⟨some ((src_y.getD m 0) + (t - (x :: rest).getD m 0) *
          (src_y.getD (m + 1) 0 - src_y.getD m 0) /
          ((x :: rest).getD (m + 1) 0 - (x :: rest).getD m 0)),
          interpOne_bracket_pair (x :: rest) src_y t .off m hcol hyl hkx hxy⟩

lemma mapE_ok_of_forall {α β : Type} (f : α → Except PErr β) (l : List α)
    (h : ∀ a ∈ l, ∃ b, f a = .ok b) : ∃ bs, mapE f l = .ok bs := by
  induction l with
  | nil => exact ⟨[], rfl⟩
  | cons a as ih =>
    obtain ⟨b, hb⟩ := h a (List.mem_cons_self a as)
    obtain ⟨bs, hbs⟩ := ih (fun y hy => h y (List.mem_cons_of_mem a hy))
    exact ⟨b :: bs, by simp [mapE, hb, hbs]⟩

lemma mapE_error_of_mem {α β : Type} (f : α → Except PErr β) (l : List α) (e : PErr)
    (hall : ∀ a ∈ l, (∃ b, f a = .ok b) ∨ f a = .error e)
    (hmem : ∃ a ∈ l, f a = .error e) : mapE f l = .error e := by
  induction l with
  | nil => simp at hmem
  | cons a as ih =>
    rcases hall a (List.mem_cons_self a as) with ⟨b, hb⟩ | hb
    · have hmem' : ∃ a ∈ as, f a = .error e := by
        obtain ⟨c, hc, hce⟩ := hmem
        rcases List.mem_cons.mp hc with rfl | hc'
        · rw [hb] at hce; cases hce
        · exact ⟨c, hc', hce⟩
      have := ih (fun y hy => hall y (List.mem_cons_of_mem a hy)) hmem'
      simp [mapE, hb, this]
    · simp [mapE, hb]

lemma interpOne_single_constant (x0 y0 t : ℚ) :
    interpOne [x0] [y0] t .constant = .ok (some y0) := by
  have hmode : ExtrapMode.constant ≠ ExtrapMode.off := by decide
  rcases lt_trichotomy t x0 with h | h | h
  · have hcol : scanCol t .constant [x0] = ⟨0, 0, true⟩ := by
      simp [scanCol, lowerExtrapSt, h]
    norm_num [interpOne, hcol, hmode, npGet, Bind.bind, Except.bind, Pure.pure,
      Except.pure]
  · subst h
    have hcol : scanCol t .constant [t] = ⟨0, 0, false⟩ := by
      simp [scanCol]
    norm_num [interpOne, hcol, hmode, npGet, Bind.bind, Except.bind, Pure.pure,
      Except.pure]
  · have hcol : scanCol t .constant [x0] = ⟨-1, -1, false⟩ := by
      simp [scanCol, scanTail, ne_of_lt h, not_lt.mpr h.le]
    norm_num [interpOne, hcol, hmode, upperExtrapSt, npGet, Bind.bind, Except.bind,
      Pure.pure, Except.pure]

lemma foldl_max_spec (x : ℚ) (xs : List ℚ) :
    (∀ y ∈ x :: xs, y ≤ xs.foldl max x) ∧ xs.foldl max x ∈ x :: xs := by
  induction xs generalizing x with
  | nil => exact ⟨fun y hy => le_of_eq (List.mem_singleton.mp hy), List.mem_singleton.mpr rfl⟩
  | cons a as ih =>
    obtain ⟨ihge, ihmem⟩ := ih (max x a)
    constructor
    · intro y hy
      rcases List.mem_cons.mp hy with rfl | hy'
      · exact le_trans (le_max_left y a) (ihge _ (List.mem_cons_self _ _))
      rcases List.mem_cons.mp hy' with rfl | hy''
      · exact le_trans (le_max_right x y) (ihge _ (List.mem_cons_self _ _))
      · exact ihge y (List.mem_cons_of_mem _ hy'')
    · rcases List.mem_cons.mp ihmem with hm | hm
      · rcases max_choice x a with hc | hc
        · exact List.mem_cons.mpr (Or.inl (hm.trans hc))
        · exact List.mem_cons_of_mem _ (List.mem_cons.mpr (Or.inl (hm.trans hc)))
      · exact List.mem_cons_of_mem _ (List.mem_cons_of_mem _ hm)

lemma foldl_min_spec (x : ℚ) (xs : List ℚ) :
    (∀ y ∈ x :: xs, xs.foldl min x ≤ y) ∧ xs.foldl min x ∈ x :: xs := by
  induction xs generalizing x with
  | nil => exact ⟨fun y hy => le_of_eq (List.mem_singleton.mp hy).symm, List.mem_singleton.mpr rfl⟩
  | cons a as ih =>
    obtain ⟨ihle, ihmem⟩ := ih (min x a)
    constructor
    · intro y hy
      rcases List.mem_cons.mp hy with rfl | hy'
      · exact le_trans (ihle _ (List.mem_cons_self _ _)) (min_le_left y a)
      rcases List.mem_cons.mp hy' with rfl | hy''
      · exact le_trans (ihle _ (List.mem_cons_self _ _)) (min_le_right x y)
      · exact ihle y (List.mem_cons_of_mem _ hy'')
    · rcases List.mem_cons.mp ihmem with hm | hm
      · rcases min_choice x a with hc | hc
        · exact List.mem_cons.mpr (Or.inl (hm.trans hc))
        · exact List.mem_cons_of_mem _ (List.mem_cons.mpr (Or.inl (hm.trans hc)))
      · exact List.mem_cons_of_mem _ (List.mem_cons_of_mem _ hm)

lemma getD_mem (l : List ℚ) (j : ℕ) (hj : j < l.length) : l.getD j 0 ∈ l := by
  rw [List.getD_eq_getElem l 0 hj]
  exact List.getElem_mem hj

lemma mem_getD (l : List ℚ) (x : ℚ) (hx : x ∈ l) :
    ∃ j, j < l.length ∧ l.getD j 0 = x := by
  obtain ⟨⟨i, hi⟩, rfl⟩ := List.mem_iff_get.mp hx
  exact ⟨i, hi, by rw [List.getD_eq_getElem l 0 hi, List.get_eq_getElem]⟩

lemma lastLtIdx_none_iff (ps : ℚ) (l : List ℚ) :
    lastLtIdx ps l = none ↔ ∀ j, j < l.length → ps ≤ l.getD j 0 := by
  induction l with
  | nil => simp [lastLtIdx]
  | cons x xs ih =>
    simp only [lastLtIdx]
    cases h : lastLtIdx ps xs with
    | some k =>
      simp only [reduceCtorEq, false_iff]
      intro hall
      have : ∀ j, j < xs.length → ps ≤ xs.getD j 0 := fun j hj => by
        simpa using hall (j + 1) (by simpa using hj)
      rw [ih.mpr this] at h
      cases h
    | none =>
      by_cases hx : x < ps
      · simp only [if_pos hx, reduceCtorEq, false_iff]
        intro hall
        exact absurd (by simpa using hall 0 (by simp)) (not_le.mpr hx)
      · simp only [if_neg hx]
        constructor
        · intro _ j hj
          cases j with
          | zero => simpa using not_lt.mp hx
          | succ m => simpa using ih.mp h m (by simpa using hj)
        · intro _; trivial

lemma lastLtIdx_some_spec (ps : ℚ) (l : List ℚ) (k : ℕ)
    (h : lastLtIdx ps l = some k) :
    k < l.length ∧ l.getD k 0 < ps ∧
      ∀ j, k < j → j < l.length → ps ≤ l.getD j 0 := by
  induction l generalizing k with
  | nil => cases h
  | cons x xs ih =>
    simp only [lastLtIdx] at h
    cases hx : lastLtIdx ps xs with
    | some m =>
      rw [hx] at h
      obtain rfl : m + 1 = k := by injection h
      obtain ⟨hm1, hm2, hm3⟩ := ih m hx
      refine ⟨by simpa using hm1, by simpa using hm2, ?_⟩
      intro j hj hjl
      obtain ⟨jj, rfl⟩ : ∃ jj, j = jj + 1 := ⟨j - 1, by omega⟩
      have : ps ≤ xs.getD jj 0 := hm3 jj (by omega) (by simpa using hjl)
      simpa using this
    | none =>
      rw [hx] at h
      by_cases hxp : x < ps
      · rw [if_pos hxp] at h
        obtain rfl : 0 = k := by injection h
        refine ⟨by simp, by simpa using hxp, ?_⟩
        intro j hj hjl
        obtain ⟨jj, rfl⟩ : ∃ jj, j = jj + 1 := ⟨j - 1, by omega⟩
        have := (lastLtIdx_none_iff ps xs).mp hx jj (by simpa using hjl)
        simpa using this
      · rw [if_neg hxp] at h
        cases h

lemma getD_set_self (l : List ℚ) (i : ℕ) (a : ℚ) (h : i < l.length) :
    (l.set i a).getD i 0 = a := by
  rw [List.getD_eq_getElem _ 0 (by simpa using h)]
  exact List.getElem_set_self (by simpa using h)

lemma getD_set_of_ne (l : List ℚ) (i j : ℕ) (a : ℚ) (h : i ≠ j) :
    (l.set i a).getD j 0 = l.getD j 0 := by
  rcases Nat.lt_or_ge j l.length with hj | hj
  · rw [List.getD_eq_getElem _ 0 (by simpa using hj), List.getD_eq_getElem _ 0 hj]
    exact List.getElem_set_ne h (by simpa using hj)
  · rw [List.getD_eq_default _ 0 (by simpa using hj), List.getD_eq_default _ 0 hj]

lemma getD_replicate (n j : ℕ) (v : ℚ) (h : j < n) :
    (List.replicate n v).getD j 0 = v := by
  rw [List.getD_eq_getElem _ 0 (by simpa using h)]
  exact List.getElem_replicate v (by simpa using h)

lemma setFrom_getD_lt (l : List ℚ) (k j : ℕ) (v : ℚ) (hj : j < k) (hk : k ≤ l.length) :
    (setFrom l k v).getD j 0 = l.getD j 0 := by
  unfold setFrom
  rw [List.getD_append _ _ 0 j (by rw [List.length_take]; omega)]
  rw [List.getD_eq_getElem _ 0 (by rw [List.length_take]; omega),
    List.getD_eq_getElem _ 0 (by omega)]
  exact List.getElem_take l

lemma setFrom_getD_ge (l : List ℚ) (k j : ℕ) (v : ℚ) (hjk : k ≤ j) (hj : j < l.length) :
    (setFrom l k v).getD j 0 = v := by
  unfold setFrom
  have hkl : (l.take k).length = k := by rw [List.length_take]; omega
  rw [List.getD_append_right _ _ 0 j (by omega), hkl]
  exact getD_replicate _ _ v (by omega)

/-- C2 counterexample: with the single-point source column [100] ↦ [7] and
mode 'off', the target pressure 50 does not map to the single source value 7;
the call raises the out-of-range error instead, contradicting "regardless of
the extrapolation mode". -/
theorem interp_single_point_counterexample :
    interp_extrap_1d [(100 : ℚ)] [7] [50] .off = .error .outOfRange ∧
    interp_extrap_1d [(100 : ℚ)] [7] [50] .off ≠ .ok [some 7] := by
  constructor
  · decide
  · decide

/-- C2 (amended): for every source column with exactly one (pressure, value)
point, mode 'constant' maps every target pressure to the single source value,
while mode 'off' raises the out-of-range error for every target pressure
different from the source pressure. -/
theorem interp_single_point_amended (x0 y0 t : ℚ) :
    interp_extrap_1d [x0] [y0] [t] .constant = .ok [some y0] ∧
    (t ≠ x0 → interp_extrap_1d [x0] [y0] [t] .off = .error .outOfRange) := by
  constructor
  · have h := interpOne_single_constant x0 y0 t
    simp [interp_extrap_1d, mapE, h]
  · intro hne
    rcases lt_or_gt_of_ne hne with h | h
    · have hlow := interpOne_off_low [x0] [y0] t (by simp) (by simpa using h)
      simp [interp_extrap_1d, mapE, hlow]
    · have hhigh := interpOne_off_high [x0] [y0] t (by
        intro y hy
        rw [List.mem_singleton.mp hy]
        exact h)
      simp [interp_extrap_1d, mapE, hhigh]

lemma mem_le_getD_last (l : List ℚ) (hs : List.Chain' (· < ·) l) (x : ℚ) (hx : x ∈ l) :
    x ≤ l.getD (l.length - 1) 0 := by
  obtain ⟨⟨i, hi⟩, rfl⟩ := List.mem_iff_get.mp hx
  have hx' : l.get ⟨i, hi⟩ = l.getD i 0 := by
    rw [List.getD_eq_getElem l 0 hi, List.get_eq_getElem]
  rw [hx']
  exact getD_le_of_chain l hs (by omega) (by omega)

/-- C3: with mode 'off' and an ascending source column, every call whose
target pressures all lie within the closed range [src_x[0], src_x[N-1]]
succeeds, any target pressure equal to a source pressure returns that source
point's value, and every call with some target pressure strictly outside the
range fails with the out-of-range error; e.g.
interp_extrap_1d([100,200], [10,20], [50], off) fails while the same inputs
with mode 'constant' return [10]. -/
theorem interp_off_range_behaviour
    (src_x src_y targ : List ℚ)
    (hs : List.Chain' (· < ·) src_x)
    (hne : src_x ≠ [])
    (hly : src_y.length = src_x.length) :
    ((∀ t ∈ targ, src_x.getD 0 0 ≤ t ∧ t ≤ src_x.getD (src_x.length - 1) 0) →
      ∃ ys, interp_extrap_1d src_x src_y targ .off = .ok ys) ∧
    (∀ i, i < src_x.length →
      interp_extrap_1d src_x src_y [src_x.getD i 0] .off =
        .ok [some (src_y.getD i 0)]) ∧
    ((∃ t ∈ targ, t < src_x.getD 0 0 ∨ src_x.getD (src_x.length - 1) 0 < t) →
      interp_extrap_1d src_x src_y targ .off = .error .outOfRange) ∧
    (interp_extrap_1d [100, 200] [10, 20] [50] .off = .error .outOfRange ∧
      interp_extrap_1d [100, 200] [10, 20] [50] .constant = .ok [some 10]) := by
  have hpos : 0 < src_x.length := List.length_pos.mpr hne
  refine ⟨?_, ?_, ?_, by decide, by decide⟩
  · intro hin
    apply mapE_ok_of_forall
    intro t ht
    obtain ⟨h1, h2⟩ := hin t ht
    exact interpOne_off_in_range src_x src_y t hly hne h1
      ⟨src_x.length - 1, by omega, h2⟩
  · intro i hi
    have h := interpOne_exact src_x src_y .off i hs hi hly
    simp only [interp_extrap_1d, mapE, h]
  · intro hout
    apply mapE_error_of_mem
    · intro t ht
      rcases lt_or_le t (src_x.getD 0 0) with hl | hl
      · exact Or.inr (interpOne_off_low src_x src_y t hne hl)
      rcases le_or_lt t (src_x.getD (src_x.length - 1) 0) with hh | hh
      · exact Or.inl (interpOne_off_in_range src_x src_y t hly hne hl
          ⟨src_x.length - 1, by omega, hh⟩)
      · exact Or.inr (interpOne_off_high src_x src_y t
          (fun x hx => lt_of_le_of_lt (mem_le_getD_last src_x hs x hx) hh))
    · obtain ⟨t, ht, hcase⟩ := hout
      refine ⟨t, ht, ?_⟩
      rcases hcase with hl | hh
      · exact interpOne_off_low src_x src_y t hne hl
      · exact interpOne_off_high src_x src_y t
          (fun x hx => lt_of_le_of_lt (mem_le_getD_last src_x hs x hx) hh)

/-- Witness for C3 at src_x = [100,200], src_y = [10,20] with the in-range
target list [150] and the out-of-range target list [50]. -/
theorem interp_off_range_behaviour_witness :
    (∃ ys, interp_extrap_1d [(100 : ℚ), 200] [10, 20] [150] .off = .ok ys) ∧
    interp_extrap_1d [(100 : ℚ), 200] [10, 20] [50] .off = .error .outOfRange := by
  have h1 := interp_off_range_behaviour [(100 : ℚ), 200] [10, 20] [150]
    (by norm_num [List.chain'_cons, List.chain'_singleton]) (by decide) (by decide)
  have h2 := interp_off_range_behaviour [(100 : ℚ), 200] [10, 20] [50]
    (by norm_num [List.chain'_cons, List.chain'_singleton]) (by decide) (by decide)
  exact ⟨h1.1 (by decide), h2.2.2.1 ⟨50, by decide, by decide⟩⟩

/-- Witness for C2 (amended) at x0 = 100, y0 = 7, t = 50. -/
theorem interp_single_point_amended_witness :
    ((50 : ℚ) ≠ 100) ∧
    interp_extrap_1d [(100 : ℚ)] [7] [50] .constant = .ok [some 7] ∧
    interp_extrap_1d [(100 : ℚ)] [7] [50] .off = .error .outOfRange :=
  ⟨by norm_num, (interp_single_point_amended 100 7 50).1,
    (interp_single_point_amended 100 7 50).2 (by norm_num)⟩

lemma replace_delta_sfc_unfold (x : ℚ) (xs : List ℚ) (ps : ℚ) (delta : List ℚ)
    (dsfc : ℚ) :
    replace_delta_sfc (x :: xs) ps delta dsfc =
      if xs.foldl max x < ps then
        .ok ((x :: xs).set ((x :: xs).length - 1) ps,
          delta.set ((x :: xs).length - 1) dsfc)
      else if ps < xs.foldl min x then .error .surfaceBounds
      else
        match lastLtIdx ps (x :: xs) with
        | none => .error .emptyReduction
        | some k => .ok ((x :: xs).set k ps, setFrom delta k dsfc) := rfl

lemma replace_delta_sfc_caseA (source_P delta : List ℚ) (ps dsfc : ℚ)
    (hne : source_P ≠ []) (hA : ∀ y ∈ source_P, y < ps) :
    replace_delta_sfc source_P ps delta dsfc =
      .ok (source_P.set (source_P.length - 1) ps,
        delta.set (source_P.length - 1) dsfc) := by
  cases source_P with
  | nil => exact absurd rfl hne
  | cons x xs =>
    rw [replace_delta_sfc_unfold, if_pos (hA _ (foldl_max_spec x xs).2)]

lemma lastLtIdx_eq_some (ps : ℚ) (l : List ℚ) (k : ℕ)
    (hk : k < l.length) (hlt : l.getD k 0 < ps)
    (hmax : ∀ j, k < j → j < l.length → ps ≤ l.getD j 0) :
    lastLtIdx ps l = some k := by
  cases h : lastLtIdx ps l with
  | none => exact absurd ((lastLtIdx_none_iff ps l).mp h k hk) (not_le.mpr hlt)
  | some kk =>
    obtain ⟨h1, h2, h3⟩ := lastLtIdx_some_spec ps l kk h
    have : kk = k := by
      by_contra hnk
      rcases Nat.lt_or_ge k kk with hlt' | hge
      · exact absurd (hmax kk hlt' h1) (not_le.mpr h2)
      · exact absurd (h3 k (by omega) hk) (not_le.mpr hlt)
    rw [this]

lemma replace_delta_sfc_caseB (source_P delta : List ℚ) (ps dsfc : ℚ) (k : ℕ)
    (hne : source_P ≠ [])
    (hnotA : ∃ y ∈ source_P, ps ≤ y)
    (hk : lastLtIdx ps source_P = some k) :
    replace_delta_sfc source_P ps delta dsfc =
      .ok (source_P.set k ps, setFrom delta k dsfc) := by
  cases source_P with
  | nil => exact absurd rfl hne
  | cons x xs =>
    rw [replace_delta_sfc_unfold]
    obtain ⟨y, hy, hpy⟩ := hnotA
    have hmax : ¬ (xs.foldl max x < ps) :=
      not_lt.mpr (le_trans hpy ((foldl_max_spec x xs).1 y hy))
    obtain ⟨hk1, hk2, _⟩ := lastLtIdx_some_spec ps (x :: xs) k hk
    have hmin : ¬ (ps < xs.foldl min x) := by
      have hle := (foldl_min_spec x xs).1 _ (getD_mem (x :: xs) k hk1)
      exact not_lt.mpr (le_of_lt (lt_of_le_of_lt hle hk2))
    rw [if_neg hmax, if_neg hmin, hk]

/-- C4: for an ascending source column on which replace_delta_sfc does not
fail: if the surface pressure exceeds every source pressure, exactly the
deepest level's pressure is replaced by the surface pressure and its value
by the surface value, all other levels unchanged; otherwise, with k the
largest index whose source pressure is below the surface pressure, the
output has pressure[k] = surface pressure, values from k on all equal to
the surface value, other pressures and earlier values unchanged; in
particular [100,200,300] with surface pressure 250 and surface value 99
yields pressures [100,250,300] and values [orig0, 99, 99]. -/
theorem replace_delta_sfc_splice
    (source_P delta : List ℚ) (ps dsfc : ℚ)
    (hs : List.Chain' (· < ·) source_P)
    (hne : source_P ≠ [])
    (hlen : delta.length = source_P.length) :
    ((∀ y ∈ source_P, y < ps) →
      ∃ P' d', replace_delta_sfc source_P ps delta dsfc = .ok (P', d') ∧
        P'.getD (source_P.length - 1) 0 = ps ∧
        d'.getD (source_P.length - 1) 0 = dsfc ∧
        (∀ j, j < source_P.length - 1 →
          P'.getD j 0 = source_P.getD j 0 ∧ d'.getD j 0 = delta.getD j 0)) ∧
    (∀ k, k < source_P.length → source_P.getD k 0 < ps →
      (∀ j, k < j → j < source_P.length → ps ≤ source_P.getD j 0) →
      (∃ y ∈ source_P, ps ≤ y) →
      ∃ P' d', replace_delta_sfc source_P ps delta dsfc = .ok (P', d') ∧
        P'.getD k 0 = ps ∧
        (∀ j, j < source_P.length → j ≠ k → P'.getD j 0 = source_P.getD j 0) ∧
        (∀ j, k ≤ j → j < source_P.length → d'.getD j 0 = dsfc) ∧
        (∀ j, j < k → d'.getD j 0 = delta.getD j 0)) ∧
    (∀ d0 d1 d2 : ℚ, replace_delta_sfc [100, 200, 300] 250 [d0, d1, d2] 99 =
      .ok ([100, 250, 300], [d0, 99, 99])) := by
  have hpos : 0 < source_P.length := List.length_pos.mpr hne
  refine ⟨?_, ?_, ?_⟩
  · intro hA
    refine ⟨_, _, replace_delta_sfc_caseA source_P delta ps dsfc hne hA, ?_, ?_, ?_⟩
    · exact getD_set_self source_P (source_P.length - 1) ps (by omega)
    · exact getD_set_self delta (source_P.length - 1) dsfc (by omega)
    · intro j hj
      exact ⟨getD_set_of_ne source_P (source_P.length - 1) j ps (by omega),
        getD_set_of_ne delta (source_P.length - 1) j dsfc (by omega)⟩
  · intro k hk hklt hkmax hnotA
    have hidx := lastLtIdx_eq_some ps source_P k hk hklt hkmax
    refine ⟨_, _, replace_delta_sfc_caseB source_P delta ps dsfc k hne hnotA hidx,
      ?_, ?_, ?_, ?_⟩
    · exact getD_set_self source_P k ps hk
    · intro j hj hjk
      exact getD_set_of_ne source_P k j ps (fun hh => hjk hh.symm)
    · intro j hjk hj
      exact setFrom_getD_ge delta k j dsfc hjk (by omega)
    · intro j hj
      exact setFrom_getD_lt delta k j dsfc hj (by omega)
  · intro d0 d1 d2
    rw [replace_delta_sfc_caseB [100, 200, 300] [d0, d1, d2] 250 99 1 (by decide)
      ⟨300, by decide, by norm_num⟩ (by decide)]
    norm_num [setFrom, List.set, List.replicate_succ]

/-- Witness for C4: the concrete splice [100,200,300], surface pressure 250,
delta [7,8,9], surface value 99. -/
theorem replace_delta_sfc_splice_witness :
    replace_delta_sfc [(100 : ℚ), 200, 300] 250 [7, 8, 9] 99 =
      .ok ([100, 250, 300], [7, 99, 99]) :=
  (replace_delta_sfc_splice [(100 : ℚ), 200, 300] [7, 8, 9] 250 99
    (by norm_num [List.chain'_cons, List.chain'_singleton]) (by decide)
    (by decide)).2.2 7 8 9

/-- C5 counterexample: for ps_hist = 100 and source pressures [100, 200] the
surface pressure is not below every source pressure (it equals the minimum),
yet the call fails: np.max of the empty argwhere result raises.  This
contradicts "for every column with surface_pressure greater than or equal to
the minimum source pressure the call does not fail". -/
theorem replace_delta_sfc_at_min_counterexample :
    (¬ ((100 : ℚ) < 100 ∧ (100 : ℚ) < 200)) ∧
    replace_delta_sfc [(100 : ℚ), 200] 100 [0, 0] 0 = .error .emptyReduction := by
  constructor
  · norm_num
  · decide

/-- C5 (amended): replace_delta_sfc raises the surface-bounds ValueError iff
ps_hist is strictly below every source pressure; it additionally fails (with
numpy's empty-reduction ValueError from np.max of an empty argwhere) exactly
when ps_hist equals the minimum source pressure; whenever some source
pressure is strictly below ps_hist the call succeeds. -/
theorem replace_delta_sfc_failure_characterisation
    (source_P delta : List ℚ) (ps dsfc : ℚ)
    (hne : source_P ≠ []) :
    (replace_delta_sfc source_P ps delta dsfc = .error .surfaceBounds ↔
      ∀ y ∈ source_P, ps < y) ∧
    (replace_delta_sfc source_P ps delta dsfc = .error .emptyReduction ↔
      (∀ y ∈ source_P, ps ≤ y) ∧ ∃ y ∈ source_P, y ≤ ps) ∧
    ((∃ y ∈ source_P, y < ps) →
      ∃ out, replace_delta_sfc source_P ps delta dsfc = .ok out) := by
  cases source_P with
  | nil => exact absurd rfl hne
  | cons x xs =>
    rw [replace_delta_sfc_unfold]
    by_cases hmax : xs.foldl max x < ps
    · rw [if_pos hmax]
      refine ⟨iff_of_false (by simp) ?_, iff_of_false (by simp) ?_, fun _ => ⟨_, rfl⟩⟩
      · intro hall
        exact absurd (hall _ (foldl_max_spec x xs).2) (not_lt.mpr hmax.le)
      · intro ⟨hall, _⟩
        exact absurd (hall _ (foldl_max_spec x xs).2) (not_le.mpr hmax)
    · rw [if_neg hmax]
      by_cases hmin : ps < xs.foldl min x
      · rw [if_pos hmin]
        refine ⟨iff_of_true rfl ?_, iff_of_false (by simp) ?_, ?_⟩
        · exact fun y hy => lt_of_lt_of_le hmin ((foldl_min_spec x xs).1 y hy)
        · intro ⟨_, y, hy, hyps⟩
          exact absurd (lt_of_lt_of_le hmin ((foldl_min_spec x xs).1 y hy))
            (not_lt.mpr hyps)
        · intro ⟨y, hy, hylt⟩
          exact absurd (lt_of_lt_of_le hmin ((foldl_min_spec x xs).1 y hy))
            (not_lt.mpr hylt.le)
      · rw [if_neg hmin]
        cases hidx : lastLtIdx ps (x :: xs) with
        | none =>
          have hall := (lastLtIdx_none_iff ps (x :: xs)).mp hidx
          have hallmem : ∀ y ∈ x :: xs, ps ≤ y := by
            intro y hy
            obtain ⟨j, hj, rfl⟩ := mem_getD _ y hy
            exact hall j hj
          refine ⟨iff_of_false (by simp) ?_, iff_of_true rfl ?_, ?_⟩
          · intro hall'
            exact hmin (hall' _ (foldl_min_spec x xs).2)
          · exact ⟨hallmem, ⟨_, (foldl_min_spec x xs).2, not_lt.mp hmin⟩⟩
          · intro ⟨y, hy, hylt⟩
            exact absurd (hallmem y hy) (not_le.mpr hylt)
        | some k =>
          obtain ⟨hk1, hk2, _⟩ := lastLtIdx_some_spec ps (x :: xs) k hidx
          refine ⟨iff_of_false (by simp) ?_, iff_of_false (by simp) ?_,
            fun _ => ⟨_, rfl⟩⟩
          · intro hall
            exact absurd (hall _ (getD_mem (x :: xs) k hk1)) (not_lt.mpr hk2.le)
          · intro ⟨hall, _⟩
            exact absurd (hall _ (getD_mem (x :: xs) k hk1)) (not_le.mpr hk2)

/-- Witness for C5 (amended) at source pressures [100, 200] with ps_hist = 50
(surface-bounds failure) and ps_hist = 150 (success). -/
theorem replace_delta_sfc_failure_characterisation_witness :
    (replace_delta_sfc [(100 : ℚ), 200] 50 [0, 0] 0 = .error .surfaceBounds) ∧
    (∃ out, replace_delta_sfc [(100 : ℚ), 200] 150 [0, 0] 0 = .ok out) := by
  have h1 := replace_delta_sfc_failure_characterisation [(100 : ℚ), 200] [0, 0] 50 0
    (by decide)
  have h2 := replace_delta_sfc_failure_characterisation [(100 : ℚ), 200] [0, 0] 150 0
    (by decide)
  exact ⟨h1.1.mpr (by decide), h2.2.2 ⟨100, by decide, by norm_num⟩⟩

lemma chain_le_of_set (P : List ℚ) (idx : ℕ) (v : ℚ)
    (hs : List.Chain' (· < ·) P) (hidx : idx < P.length)
    (hlo : 0 < idx → P.getD (idx - 1) 0 ≤ v)
    (hhi : idx + 1 < P.length → v ≤ P.getD (idx + 1) 0) :
    List.Chain' (· ≤ ·) (P.set idx v) := by
  rw [List.chain'_iff_get]
  intro i hi
  rw [List.length_set] at hi
  have hgetD : ∀ (j : ℕ) (hj : j < (P.set idx v).length),
      (P.set idx v).get ⟨j, hj⟩ = (P.set idx v).getD j 0 := fun j hj => by
    rw [List.getD_eq_getElem _ 0 hj, List.get_eq_getElem]
  rw [hgetD, hgetD]
  by_cases h1 : i = idx
  · subst h1
    rw [getD_set_self P i v (by omega), getD_set_of_ne P i (i + 1) v (by omega)]
    exact hhi (by omega)
  · by_cases h2 : i + 1 = idx
    · rw [getD_set_of_ne P idx i v (fun hh => h1 hh.symm), h2,
        getD_set_self P idx v hidx]
      have := hlo (by omega)
      have hidx1 : idx - 1 = i := by omega
      rwa [hidx1] at this
    · rw [getD_set_of_ne P idx i v (fun hh => h1 hh.symm),
        getD_set_of_ne P idx (i + 1) v (fun hh => h2 hh.symm)]
      exact (getD_lt_of_chain P hs (by omega) (by omega)).le

/-- C6: for every strictly ascending source pressure column on which
replace_delta_sfc succeeds, the returned spliced pressure array is still
(non-strictly) monotonically ascending. -/
theorem replace_delta_sfc_preserves_monotone
    (source_P delta : List ℚ) (ps dsfc : ℚ) (P' d' : List ℚ)
    (hs : List.Chain' (· < ·) source_P)
    (hok : replace_delta_sfc source_P ps delta dsfc = .ok (P', d')) :
    List.Chain' (· ≤ ·) P' := by
  cases source_P with
  | nil =>
    rw [show replace_delta_sfc [] ps delta dsfc = .error .emptyReduction from rfl] at hok
    cases hok
  | cons x xs =>
    rw [replace_delta_sfc_unfold] at hok
    by_cases hmax : xs.foldl max x < ps
    · rw [if_pos hmax] at hok
      injection hok with hpair
      injection hpair with h1 h2
      subst h1
      apply chain_le_of_set _ _ _ hs
        (by
          have hplen : 0 < (x :: xs).length := by simp
          omega)
      · intro h0
        have hmem := getD_mem (x :: xs) ((x :: xs).length - 1 - 1)
          (by
            have hplen : 0 < (x :: xs).length := by simp
            omega)
        exact (lt_of_le_of_lt ((foldl_max_spec x xs).1 _ hmem) hmax).le
      · intro hcontra
        exact absurd hcontra (by omega)
    · rw [if_neg hmax] at hok
      by_cases hmin : ps < xs.foldl min x
      · rw [if_pos hmin] at hok
        cases hok
      · rw [if_neg hmin] at hok
        cases hidx : lastLtIdx ps (x :: xs) with
        | none => rw [hidx] at hok; cases hok
        | some k =>
          rw [hidx] at hok
          injection hok with hpair
          injection hpair with h1 h2
          subst h1
          obtain ⟨hk1, hk2, hk3⟩ := lastLtIdx_some_spec ps (x :: xs) k hidx
          apply chain_le_of_set _ _ _ hs hk1
          · intro h0
            exact ((getD_lt_of_chain (x :: xs) hs (by omega) hk1).trans hk2).le
          · intro hnext
            exact hk3 (k + 1) (by omega) hnext

/-- Witness for C6: the splice of [100,200,300] at surface pressure 250
returns the pressures [100,250,300], which are non-strictly ascending. -/
theorem replace_delta_sfc_preserves_monotone_witness :
    List.Chain' (· ≤ ·) [(100 : ℚ), 250, 300] :=
  replace_delta_sfc_preserves_monotone [(100 : ℚ), 200, 300] [1, 2, 3] 250 99
    [100, 250, 300] [1, 99, 99]
    (by norm_num [List.chain'_cons, List.chain'_singleton]) (by decide)

/-- C7: vert_interp_delta's field-level guard: when the minimum target
pressure is below the minimum source pressure, the operation fails with the
top-boundary error unless the caller passed ignore_top_pressure_error = true
(in which case it proceeds to the interpolation); when the minimum target
pressure is at or above the minimum source pressure, the guard never fires
regardless of the flag and the interpolation runs. -/
theorem vert_interp_delta_top_guard
    (f : ℚ → ℚ) (delta plev target_P : List ℚ) (mt ms : ℚ)
    (hT : npMin target_P = .ok mt)
    (hS : npMin plev.reverse = .ok ms) :
    (mt < ms →
      vert_interp_delta_col f delta plev target_P false = .error .topBoundary) ∧
    (mt < ms →
      vert_interp_delta_col f delta plev target_P true =
        mapE (fun t => interpOne (plev.reverse.map f) delta.reverse (f t) .constant)
          target_P) ∧
    (ms ≤ mt → ∀ ig : Bool,
      vert_interp_delta_col f delta plev target_P ig =
        mapE (fun t => interpOne (plev.reverse.map f) delta.reverse (f t) .constant)
          target_P) := by
  refine ⟨?_, ?_, ?_⟩
  · intro h
    simp only [vert_interp_delta_col, hT, hS, Bind.bind, Except.bind]
    rw [if_pos ⟨h, by simp⟩]
  · intro h
    simp only [vert_interp_delta_col, hT, hS, Bind.bind, Except.bind]
    rw [if_neg (fun hc => hc.2 trivial)]
  · intro h ig
    simp only [vert_interp_delta_col, hT, hS, Bind.bind, Except.bind]
    rw [if_neg (fun hc => absurd hc.1 (not_lt.mpr h))]

/-- Witness for C7 at plev = [300,200,100] (descending, as stored in the
delta file), target = [50] (above the model top), flag off: the guard
fires. -/
theorem vert_interp_delta_top_guard_witness :
    npMin [(50 : ℚ)] = .ok 50 ∧
    npMin ([(300 : ℚ), 200, 100].reverse) = .ok 100 ∧
    (50 : ℚ) < 100 ∧
    vert_interp_delta_col id [3, 2, 1] [300, 200, 100] [50] false =
      .error .topBoundary := by
  refine ⟨by decide, by decide, by norm_num, ?_⟩
  exact (vert_interp_delta_top_guard id [3, 2, 1] [300, 200, 100] [50] 50 100
    (by decide) (by decide)).1 (by norm_num)

lemma determine_p_ref_none_of_all (ps_era ps_pgw : ℚ) (opts : List ℚ)
    (last : Option ℚ)
    (h : ∀ p ∈ opts, ¬(ps_era > p ∧ ps_pgw > p)) :
    determine_p_ref ps_era ps_pgw opts last = none := by
  induction opts with
  | nil => rfl
  | cons p rest ih =>
    simp only [determine_p_ref, if_neg (h p (List.mem_cons_self p rest))]
    exact ih (fun q hq => h q (List.mem_cons_of_mem p hq))

lemma determine_p_ref_first (ps_era ps_pgw : ℚ) (opts : List ℚ) (i : ℕ)
    (last : Option ℚ)
    (hi : i < opts.length)
    (hq : ps_era > opts.getD i 0 ∧ ps_pgw > opts.getD i 0)
    (hmin : ∀ j, j < i → ¬(ps_era > opts.getD j 0 ∧ ps_pgw > opts.getD j 0)) :
    determine_p_ref ps_era ps_pgw opts last =
      match last with
      | none => some (opts.getD i 0)
      | some l => some (min (opts.getD i 0) l) := by
  induction opts generalizing i with
  | nil => simp at hi
  | cons p rest ih =>
    cases i with
    | zero =>
      simp only [List.getD_cons_zero] at hq ⊢
      simp only [determine_p_ref, if_pos hq]
    | succ n =>
      have hp : ¬(ps_era > p ∧ ps_pgw > p) := by simpa using hmin 0 (Nat.succ_pos n)
      simp only [List.getD_cons_succ] at hq ⊢
      simp only [determine_p_ref, if_neg hp]
      exact ih n (by simpa using hi) hq
        (fun j hj => by simpa using hmin (j + 1) (by omega))

lemma determine_p_ref_le_last (ps_era ps_pgw : ℚ) (opts : List ℚ) (l : ℚ)
    (hex : ∃ p ∈ opts, ps_era > p ∧ ps_pgw > p) :
    ∃ r, determine_p_ref ps_era ps_pgw opts (some l) = some r ∧ r ≤ l := by
  induction opts with
  | nil => simp at hex
  | cons p rest ih =>
    by_cases hp : ps_era > p ∧ ps_pgw > p
    · exact ⟨min p l, by simp [determine_p_ref, hp], min_le_right p l⟩
    · obtain ⟨q, hq, hqq⟩ := hex
      rcases List.mem_cons.mp hq with rfl | hq'
      · exact absurd hqq hp
      · obtain ⟨r, hr, hrl⟩ := ih ⟨q, hq', hqq⟩
        exact ⟨r, by simp [determine_p_ref, hp, hr], hrl⟩

/-- C10: determine_p_ref returns the first candidate p in the given iteration
order with ps_era > p and ps_pgw > p; with p_ref_last given it returns
min(p, p_ref_last); with no qualifying candidate it returns none; and with
p_ref_last given and some qualifying candidate the result never exceeds
p_ref_last.  (The result is a pure function of the arguments, so repeated
calls with the same arguments agree by construction.) -/
theorem determine_p_ref_spec (ps_era ps_pgw : ℚ) (opts : List ℚ) :
    (∀ i, i < opts.length →
      (ps_era > opts.getD i 0 ∧ ps_pgw > opts.getD i 0) →
      (∀ j, j < i → ¬(ps_era > opts.getD j 0 ∧ ps_pgw > opts.getD j 0)) →
      determine_p_ref ps_era ps_pgw opts none = some (opts.getD i 0) ∧
      ∀ l : ℚ, determine_p_ref ps_era ps_pgw opts (some l) =
        some (min (opts.getD i 0) l)) ∧
    ((∀ p ∈ opts, ¬(ps_era > p ∧ ps_pgw > p)) →
      ∀ last, determine_p_ref ps_era ps_pgw opts last = none) ∧
    (∀ l : ℚ, (∃ p ∈ opts, ps_era > p ∧ ps_pgw > p) →
      ∃ r, determine_p_ref ps_era ps_pgw opts (some l) = some r ∧ r ≤ l) := by
  refine ⟨?_, ?_, ?_⟩
  · intro i hi hq hmin
    exact ⟨determine_p_ref_first ps_era ps_pgw opts i none hi hq hmin,
      fun l => determine_p_ref_first ps_era ps_pgw opts i (some l) hi hq hmin⟩
  · exact fun h last => determine_p_ref_none_of_all ps_era ps_pgw opts last h
  · exact fun l hex => determine_p_ref_le_last ps_era ps_pgw opts l hex

/-- Witness for C10 with candidates [1000, 850, 700]: surface pressures
(950, 900) select 850 (first qualifying, index 1); with p_ref_last = 700 the
result is capped at 700; surface pressures (600, 900) disqualify every
candidate and give none. -/
theorem determine_p_ref_spec_witness :
    determine_p_ref (950 : ℚ) 900 [1000, 850, 700] none = some 850 ∧
    determine_p_ref (950 : ℚ) 900 [1000, 850, 700] (some 700) = some 700 ∧
    determine_p_ref (600 : ℚ) 900 [1000, 850] none = none := by
  have h := determine_p_ref_spec (950 : ℚ) 900 [1000, 850, 700]
  have h2 := determine_p_ref_spec (600 : ℚ) 900 [1000, 850]
  refine ⟨?_, ?_, h2.2.1 (by decide) none⟩
  · have hh := (h.1 1 (by decide) (by decide) (by decide)).1
    simpa using hh
  · have hh := (h.1 1 (by decide) (by decide) (by decide)).2 700
    rw [hh]
    norm_num [min_def]

/-- C8: for every input timeseries containing at least one NaN element,
harmonic_ac_analysis returns an all-NaN sequence of the input's length and
raises no error; the NaN check precedes the harmonic-count check, so a
NaN-containing series never reaches the too-short abort, even when
floor(P/2) ≤ 3. -/
theorem harmonic_nan_propagation (ts : List (Option ℝ))
    (h : ts.any Option.isNone = true) :
    harmonic_ac_analysis ts = .ok (List.replicate ts.length none) := by
  simp only [harmonic_ac_analysis, h, if_true]

/-- Witness for C8: the series [1, NaN] has length 2 (floor(2/2) = 1 ≤ 3,
too short for three harmonics), yet the all-NaN result is returned without
error. -/
theorem harmonic_nan_propagation_witness :
    ([some (1 : ℝ), none].any Option.isNone = true) ∧
    harmonic_ac_analysis [some (1 : ℝ), none] = .ok [none, none] := by
  refine ⟨rfl, ?_⟩
  have h := harmonic_nan_propagation [some (1 : ℝ), none] rfl
  rw [h]
  rfl

lemma exp_harmonic_ne_one (i P : ℕ) (hi : 0 < i) (hiP : i < P) :
    Complex.exp (((2 * Real.pi * i / P : ℝ) : ℂ) * Complex.I) ≠ 1 := by
  intro h
  rw [Complex.exp_eq_one_iff] at h
  obtain ⟨n, hn⟩ := h
  have hP : (0 : ℝ) < P := by exact_mod_cast lt_trans hi hiP
  have hc : ((2 * Real.pi * i / P : ℝ) : ℂ) = (n : ℂ) * (2 * (Real.pi : ℂ)) := by
    have h2 : ((2 * Real.pi * i / P : ℝ) : ℂ) * Complex.I =
        ((n : ℂ) * (2 * (Real.pi : ℂ))) * Complex.I := by
      rw [hn]; ring
    exact mul_right_cancel₀ Complex.I_ne_zero h2
  have hr : (2 * Real.pi * i / P : ℝ) = n * (2 * Real.pi) := by exact_mod_cast hc
  have hpi : (0 : ℝ) < 2 * Real.pi := by positivity
  have hiP' : (i : ℝ) = n * P := by
    have hPne : (P : ℝ) ≠ 0 := ne_of_gt hP
    have h3 : 2 * Real.pi * i = n * (2 * Real.pi) * P := by
      field_simp at hr
      linarith [hr]
    have h4 : (2 * Real.pi) * (i : ℝ) = (2 * Real.pi) * (n * P) := by ring_nf; ring_nf at h3; linarith [h3]
    exact mul_left_cancel₀ (ne_of_gt hpi) h4
  have hiz : (i : ℤ) = n * P := by exact_mod_cast hiP'
  have hi' : (0 : ℤ) < i := by exact_mod_cast hi
  have hiP'' : (i : ℤ) < P := by exact_mod_cast hiP
  have hPz : (0 : ℤ) < P := by exact_mod_cast lt_trans hi hiP
  rcases le_or_lt n 0 with hn0 | hn0
  · have : (n : ℤ) * P ≤ 0 := mul_nonpos_of_nonpos_of_nonneg hn0 hPz.le
    omega
  · have h1n : (1 : ℤ) ≤ n := hn0
    have : (P : ℤ) ≤ n * P := le_mul_of_one_le_left hPz.le h1n
    omega

lemma sum_exp_harmonic (P i : ℕ) (hi : 0 < i) (hiP : i < P) :
    ∑ j ∈ Finset.range P, Complex.exp (((hAngle P i j : ℝ) : ℂ) * Complex.I) = 0 := by
  have hzne : Complex.exp (((2 * Real.pi * i / P : ℝ) : ℂ) * Complex.I) ≠ 1 :=
    exp_harmonic_ne_one i P hi hiP
  have hzP : Complex.exp (((2 * Real.pi * i / P : ℝ) : ℂ) * Complex.I) ^ P = 1 := by
    rw [← Complex.exp_nat_mul]
    have hPne : (P : ℝ) ≠ 0 := by
      have : (0 : ℝ) < P := by exact_mod_cast lt_trans hi hiP
      exact ne_of_gt this
    have harg : (P : ℂ) * (((2 * Real.pi * i / P : ℝ) : ℂ) * Complex.I) =
        (i : ℤ) * (2 * (Real.pi : ℂ) * Complex.I) := by
      push_cast
      have hPc : (P : ℂ) ≠ 0 := by exact_mod_cast hPne
      field_simp
      ring
    rw [harg, Complex.exp_int_mul_two_pi_mul_I]
  have hterm : ∀ j : ℕ, Complex.exp (((hAngle P i j : ℝ) : ℂ) * Complex.I) =
      Complex.exp (((2 * Real.pi * i / P : ℝ) : ℂ) * Complex.I) ^ (j + 1) := by
    intro j
    rw [← Complex.exp_nat_mul]
    congr 1
    unfold hAngle
    push_cast
    ring
  rw [Finset.sum_congr rfl (fun j _ => hterm j)]
  have hsplit : ∑ j ∈ Finset.range P,
      Complex.exp (((2 * Real.pi * i / P : ℝ) : ℂ) * Complex.I) ^ (j + 1) =
      Complex.exp (((2 * Real.pi * i / P : ℝ) : ℂ) * Complex.I) *
        ∑ j ∈ Finset.range P,
          Complex.exp (((2 * Real.pi * i / P : ℝ) : ℂ) * Complex.I) ^ j := by
    rw [Finset.mul_sum]
    exact Finset.sum_congr rfl (fun j _ => by ring)
  rw [hsplit, geom_sum_eq hzne, hzP]
  simp

lemma sum_cos_harmonic (P i : ℕ) (hi : 0 < i) (hiP : i < P) :
    ∑ j ∈ Finset.range P, Real.cos (hAngle P i j) = 0 := by
  have h := congrArg Complex.re (sum_exp_harmonic P i hi hiP)
  rw [Complex.re_sum] at h
  simpa [Complex.exp_ofReal_mul_I_re] using h

lemma sum_sin_harmonic (P i : ℕ) (hi : 0 < i) (hiP : i < P) :
    ∑ j ∈ Finset.range P, Real.sin (hAngle P i j) = 0 := by
  have h := congrArg Complex.im (sum_exp_harmonic P i hi hiP)
  rw [Complex.im_sum] at h
  simpa [Complex.exp_ofReal_mul_I_im] using h

lemma getD_replicate_any {α : Type} (n j : ℕ) (v d : α) (h : j < n) :
    (List.replicate n v).getD j d = v := by
  rw [List.getD_eq_getElem _ d (by simpa using h)]
  exact List.getElem_replicate v (by simpa using h)

lemma coefA_const (c : ℝ) (P i : ℕ) (hi : 0 < i) (hiP : i < P) :
    coefA (List.replicate P c) i = 0 := by
  unfold coefA
  rw [List.length_replicate]
  have hcongr : ∀ j ∈ Finset.range P,
      (List.replicate P c).getD j 0 * Real.cos (hAngle P i j) =
        c * Real.cos (hAngle P i j) := by
    intro j hj
    rw [getD_replicate_any P j c 0 (Finset.mem_range.mp hj)]
  rw [Finset.sum_congr rfl hcongr, ← Finset.mul_sum,
    sum_cos_harmonic P i hi hiP, mul_zero, mul_zero]

lemma coefB_const (c : ℝ) (P i : ℕ) (hi : 0 < i) (hiP : i < P) :
    coefB (List.replicate P c) i = 0 := by
  unfold coefB
  rw [List.length_replicate]
  have hcongr : ∀ j ∈ Finset.range P,
      (List.replicate P c).getD j 0 * Real.sin (hAngle P i j) =
        c * Real.sin (hAngle P i j) := by
    intro j hj
    rw [getD_replicate_any P j c 0 (Finset.mem_range.mp hj)]
  rw [Finset.sum_congr rfl hcongr, ← Finset.mul_sum,
    sum_sin_harmonic P i hi hiP, mul_zero, mul_zero]

lemma harmonicMean_const (c : ℝ) (P : ℕ) (hP : 0 < P) :
    harmonicMean (List.replicate P c) = c := by
  unfold harmonicMean
  rw [List.sum_replicate, List.length_replicate, nsmul_eq_mul]
  have hPne : (P : ℝ) ≠ 0 := by
    have : (0 : ℝ) < P := by exact_mod_cast hP
    exact ne_of_gt this
  field_simp

lemma hRecon_const (c : ℝ) (P : ℕ) (hP : 3 < P) :
    hRecon (List.replicate P c) = List.replicate P c := by
  unfold hRecon
  rw [List.length_replicate]
  rw [List.eq_replicate_iff]
  constructor
  · simp
  · intro b hb
    obtain ⟨j, hj, rfl⟩ := List.mem_map.mp hb
    have hz : ∀ i ∈ Finset.range 3,
        coefA (List.replicate P c) (i + 1) * Real.cos (hAngle P (i + 1) j) +
          coefB (List.replicate P c) (i + 1) * Real.sin (hAngle P (i + 1) j) = 0 := by
      intro i hi
      have hi3 : i < 3 := Finset.mem_range.mp hi
      rw [coefA_const c P (i + 1) (by omega) (by omega),
        coefB_const c P (i + 1) (by omega) (by omega)]
      ring
    rw [Finset.sum_congr rfl hz, Finset.sum_const_zero, zero_add,
      harmonicMean_const c P (by omega)]

/-- C9: for every constant timeseries of value c over a period P with
floor(P/2) > 3 (in particular c = 5, P = 365), harmonic_ac_analysis returns
the same constant series of the same length: in exact arithmetic the
harmonic coefficients a_i and b_i vanish, so the reconstruction reduces to
the mean. -/
theorem harmonic_constant_timeseries (c : ℝ) (P : ℕ) (h : 3 < P / 2) :
    harmonic_ac_analysis (List.replicate P (some c)) =
      .ok (List.replicate P (some c)) := by
  have hnonan : (List.replicate P (some c)).any Option.isNone = false := by
    rw [List.any_eq_false]
    intro o ho
    rw [List.eq_of_mem_replicate ho]
    simp
  have hP3 : 3 < P := by omega
  simp only [harmonic_ac_analysis, hnonan, Bool.false_eq_true, if_false,
    List.map_replicate, List.length_replicate, Option.getD_some]
  rw [if_pos h, hRecon_const c P hP3, List.map_replicate]

/-- Witness for C9 at c = 5, P = 365. -/
theorem harmonic_constant_timeseries_witness :
    (3 < 365 / 2) ∧
    harmonic_ac_analysis (List.replicate 365 (some (5 : ℝ))) =
      .ok (List.replicate 365 (some (5 : ℝ))) :=
  ⟨by norm_num, harmonic_constant_timeseries 5 365 (by norm_num)⟩
